import Mathlib

/-!
Verification development for the SnippetManager repository.

Shallow embedding of the block highlighter (`src/syntax_highlighter.py`,
method `highlightBlock` together with the rule tables built by
`_setup_delimiters_and_rules`), and of the tag normalisation and tag
filtering done by the snippet store (`src/snippet_manager.py`,
`_save_snippet` and `load_snippets`).

Block text is modelled as `List Char`.  Emitted `setFormat` calls become a
list of spans `(startOffset, length, format)` in emission order; emitted
`setCurrentBlockState` calls become a list of state integers in call order
(the block's resulting state is the last entry, when any call was made).
Qt state constants are the source's integers: Normal = -1, multi-line
comment = 1, multi-line double-quote string = 2, single-quote string = 3.
-/

namespace SnippetManager

/-- Qt default block state, `STATE_NORMAL = -1` in the source. -/
def stNormal : Int := -1
/-- `STATE_ML_COMMENT = 1` in the source. -/
def stComment : Int := 1
/-- `STATE_ML_STRING_DQ = 2` in the source. -/
def stStringDq : Int := 2
/-- `STATE_ML_STRING_SQ = 3` in the source. -/
def stStringSq : Int := 3

/-- The distinct `QTextCharFormat` objects built in
`_setup_delimiters_and_rules`; we only track their identity, which is what
decides which style a character ends up with. -/
inductive Fmt where
  | keyword
  | comment
  | string
  | number
  | function
  | classType
  | operator
  | brace
  | decorator
  | preprocessor
  | selfRef
  | builtin
  | cppType
  | cppLiteral
deriving DecidableEq, Repr

/-- One `setFormat(start, count, format)` call. -/
abbrev Span := Nat × Nat × Fmt

/-- A single-line highlighting rule: the global-match function of its
regular expression (list of `(captureStart, captureLength)` pairs over a
subject string, in iteration order) together with its format. -/
structure Rule where
  matcher : List Char → List (Nat × Nat)
  fmt : Fmt

/-- A built rule table: `highlighting_rules` plus the six multi-line
delimiter patterns (all of them literal strings in the source:
`/*`, `*/`, `<!--`, `-->`, `"""`, `'''`). -/
structure HTable where
  rules : List Rule
  mlCommentStart : Option (List Char)
  mlCommentEnd : Option (List Char)
  mlStringDqStart : Option (List Char)
  mlStringDqEnd : Option (List Char)
  mlStringSqStart : Option (List Char)
  mlStringSqEnd : Option (List Char)

/-- The observable output of one `highlightBlock` call: the `setFormat`
calls and the `setCurrentBlockState` calls, each in execution order. -/
structure HOut where
  spans : List Span
  sets : List Int
deriving DecidableEq, Repr

/-! ### Literal pattern search

`QRegularExpression.match(text, offset)` for a literal pattern returns the
first occurrence at or after `offset`; `capturedStart` is absolute in the
subject and `capturedLength` is the pattern length. -/

/-- Auxiliary scan: first index `≥ i` (indexing the original list) at which
`pat` is a prefix of the remainder `s`. -/
def findFromAux (pat : List Char) : List Char → Nat → Option Nat
  | [], i => if pat = [] then some i else none
  | c :: t, i => if pat.isPrefixOf (c :: t) then some i else findFromAux pat t (i + 1)

/-- First match position of the literal `pat` in `text` at or after `start`. -/
def findFrom (pat text : List Char) (start : Nat) : Option Nat :=
  findFromAux pat (text.drop start) start

/-! ### Character classes and regex building blocks -/

/-- Regex `\w` (the source's patterns are matched on ASCII identifiers). -/
def wordChar (c : Char) : Bool := c.isAlpha || c.isDigit || c = '_'

/-- Regex `\s`. -/
def wsChar (c : Char) : Bool :=
  c = ' ' || c = '\t' || c = '\n' || c = '\r' || c = '\x0b' || c = '\x0c'

/-- Is the character at index `i` a word character (out of range counts as
not a word character, as at subject boundaries)? -/
def isWordAt (t : List Char) (i : Nat) : Bool :=
  match t.get? i with
  | some c => wordChar c
  | none => false

/-- Regex `\b` at position `i` of subject `t`: the two sides differ in
word-character-ness. -/
def boundaryAt (t : List Char) (i : Nat) : Bool :=
  match i with
  | 0 => isWordAt t 0
  | j + 1 => isWordAt t j != isWordAt t (j + 1)

/-- Do the characters of `w` occur literally at position `i` of `t`? -/
def charsMatchAt (t : List Char) (i : Nat) (w : List Char) : Bool :=
  w.isPrefixOf (t.drop i)

/-- Length of the maximal run of characters satisfying `p` starting at `i`. -/
def charRun (p : Char → Bool) (t : List Char) (i : Nat) : Nat :=
  ((t.drop i).takeWhile p).length

/-- Not a newline (regex `.` and `[^\n]`). -/
def notNl (c : Char) : Bool := !(c = '\n')

/-- The apostrophe character, written by code to stay clear of lexical
corner cases in string-literal scanning. -/
def sqc : Char := Char.ofNat 39

/-! ### Match-at functions, one per regular expression of the source.

Each takes the subject and a candidate start position and returns the
captured length of the leftmost-at-this-position match, if any.  Global
matching (`globalMatch`) then scans candidate positions left to right. -/

/-- Closing-quote search for the string rules: first index `j` whose
character is the quote `q` not preceded by a backslash, with no newline
before it (regex `.` does not cross newlines).  `prevc` is the character
just before the current position. -/
def findCloseQ (q : Char) : List Char → Char → Nat → Option Nat
  | [], _, _ => none
  | c :: rest, prevc, j =>
    if c = '\n' then none
    else if c = q ∧ ¬(prevc = '\\') then some j
    else findCloseQ q rest c (j + 1)

/-- Regex `".*?(?<!\\)"` (and the same with single quotes): a quote, a lazy
run of non-newline characters, and a closing quote whose preceding
character is not a backslash. -/
def mQuoted (q : Char) (t : List Char) (i : Nat) : Option Nat :=
  if t.get? i = some q then
    (findCloseQ q (t.drop (i + 1)) q (i + 1)).map (fun j => j + 1 - i)
  else none

/-- The exponent part `([eE][-+]?[0-9]+)` of the decimal-number regex:
given a start position, the position just past the exponent, if it
matches there. -/
def expEnd (t : List Char) (p : Nat) : Option Nat :=
  match t.get? p with
  | some c =>
    if c = 'e' ∨ c = 'E' then
      let s : Nat :=
        match t.get? (p + 1) with
        | some c2 => if c2 = '+' ∨ c2 = '-' then 1 else 0
        | none => 0
      let d := charRun Char.isDigit t (p + 1 + s)
      if d = 0 then none else some (p + 1 + s + d)
    else none
  | none => none

/-- Candidate end positions for the decimal-number regex after the
mandatory digit run ends at `a`, in the engine's greedy backtracking
preference order: dot with fraction and exponent, dot with fraction, bare
dot, exponent without dot, digits only. -/
def numCands (t : List Char) (a : Nat) : List Nat :=
  (if t.get? a = some '.' then
    let fr := charRun Char.isDigit t (a + 1)
    let b := a + 1 + fr
    (expEnd t b).toList ++ [b, a + 1]
  else []) ++ (expEnd t a).toList ++ [a]

/-- Regex `\b[0-9]+\.?[0-9]*([eE][-+]?[0-9]+)?\b`: the first candidate end
with a word boundary there wins. -/
def mNumDec (t : List Char) (i : Nat) : Option Nat :=
  if boundaryAt t i then
    let d := charRun Char.isDigit t i
    if d = 0 then none else
    match (numCands t (i + d)).find? (fun j => boundaryAt t j) with
    | some j => some (j - i)
    | none => none
  else none

/-- Regexes `\b0[xX][0-9a-fA-F]+\b` and `\b0[bB][01]+\b`: a zero, one of
two tag letters, a nonempty digit run of the given class, both ends on
word boundaries. -/
def mRadix (tag1 tag2 : Char) (p : Char → Bool) (t : List Char) (i : Nat) : Option Nat :=
  if boundaryAt t i ∧ t.get? i = some '0' ∧
      (t.get? (i + 1) = some tag1 ∨ t.get? (i + 1) = some tag2) then
    let d := charRun p t (i + 2)
    if d = 0 then none
    else if boundaryAt t (i + 2 + d) then some (2 + d) else none
  else none

def isHexDigit (c : Char) : Bool := c.isDigit || ('a' ≤ c ∧ c ≤ 'f') || ('A' ≤ c ∧ c ≤ 'F')
def isBinDigit (c : Char) : Bool := c = '0' || c = '1'
def isOctDigit (c : Char) : Bool := '0' ≤ c ∧ c ≤ '7'

def mHex : List Char → Nat → Option Nat := mRadix 'x' 'X' isHexDigit
def mBin : List Char → Nat → Option Nat := mRadix 'b' 'B' isBinDigit

/-- Regex `\b0[oO]?[0-7]+\b`. -/
def mOct (t : List Char) (i : Nat) : Option Nat :=
  if boundaryAt t i ∧ t.get? i = some '0' then
    if t.get? (i + 1) = some 'o' ∨ t.get? (i + 1) = some 'O' then
      let d := charRun isOctDigit t (i + 2)
      if d = 0 then none
      else if boundaryAt t (i + 2 + d) then some (2 + d) else none
    else
      let d := charRun isOctDigit t (i + 1)
      if d = 0 then none
      else if boundaryAt t (i + 1 + d) then some (1 + d) else none
  else none

/-- A single-character class rule (the operator and brace rules). -/
def mCharClass (s : List Char) (t : List Char) (i : Nat) : Option Nat :=
  match t.get? i with
  | some c => if c ∈ s then some 1 else none
  | none => none

/-- The operator character class `[=\+\-\*\/%<>&\|\^~!:\.\?,\.;]`. -/
def opsChars : List Char :=
  ['=', '+', '-', '*', '/', '%', '<', '>', '&', '|', '^', '~', '!', ':', '.', '?', ',', ';']

/-- The brace character class `[\(\)\{\}\[\]]`. -/
def braceChars : List Char := ['(', ')', '\x7b', '\x7d', '[', ']']

/-- A to-end-of-line rule such as `#[^\n]*`, `//[^\n]*`, `--[^\n]*`:
the literal marker `pre`, then everything up to the next newline. -/
def mToEol (pre : List Char) (t : List Char) (i : Nat) : Option Nat :=
  if charsMatchAt t i pre then
    some (pre.length + charRun notNl t (i + pre.length))
  else none

/-- C++ raw-string regex `R"\((?:(?!\)).)*\)"`: the opener, a run of
characters that are neither a closing parenthesis nor a newline, then a
closing parenthesis immediately followed by a double quote. -/
def mRaw (t : List Char) (i : Nat) : Option Nat :=
  if charsMatchAt t i ['R', '"', '('] then
    let d := charRun (fun c => ¬(c = ')') ∧ ¬(c = '\n')) t (i + 3)
    if t.get? (i + 3 + d) = some ')' ∧ t.get? (i + 3 + d + 1) = some '"' then
      some (3 + d + 2)
    else none
  else none

/-- A whole-word rule `\bW\b`. -/
def mWord (w : List Char) (t : List Char) (i : Nat) : Option Nat :=
  if boundaryAt t i ∧ charsMatchAt t i w ∧ boundaryAt t (i + w.length) then
    some w.length
  else none

/-- A word-alternation rule `\b(a|b|c)\b`: the engine tries the
alternatives in declaration order. -/
def mWordAlts (ws : List (List Char)) (t : List Char) (i : Nat) : Option Nat :=
  if boundaryAt t i then
    (ws.find? (fun w => charsMatchAt t i w && boundaryAt t (i + w.length))).map List.length
  else none

/-- Rules of the shape `\b(class|struct)\s+(\w+)` / `\bdef\s+(\w+)`: a
keyword alternative, at least one whitespace character, then a nonempty
identifier; the capture is the whole match. -/
def mKwSpaceWord (kws : List (List Char)) (t : List Char) (i : Nat) : Option Nat :=
  if boundaryAt t i then
    kws.findSome? (fun w =>
      if charsMatchAt t i w then
        let sp := charRun wsChar t (i + w.length)
        if sp = 0 then none else
        let wr := charRun wordChar t (i + w.length + sp)
        if wr = 0 then none else some (w.length + sp + wr)
      else none)
  else none

/-- The function-call rule `\b\w+(?=\s*\()`: a maximal identifier followed
(across optional whitespace, not captured) by an opening parenthesis. -/
def mCallLookahead (t : List Char) (i : Nat) : Option Nat :=
  if boundaryAt t i then
    let wr := charRun wordChar t i
    if wr = 0 then none else
    let sp := charRun wsChar t (i + wr)
    if t.get? (i + wr + sp) = some '(' then some wr else none
  else none

/-- The preprocessor rule `^\s*#\w+.*`: anchored at subject start,
leading whitespace, the marker, a nonempty identifier, then the rest of
the line. -/
def mPreproc (t : List Char) (i : Nat) : Option Nat :=
  if i = 0 then
    let sp := charRun wsChar t 0
    if t.get? sp = some '#' then
      let wr := charRun wordChar t (sp + 1)
      if wr = 0 then none
      else some (sp + 1 + wr + charRun notNl t (sp + 1 + wr))
    else none
  else none

/-- The decorator rule `^\s*@\w+`. -/
def mDecorator (t : List Char) (i : Nat) : Option Nat :=
  if i = 0 then
    let sp := charRun wsChar t 0
    if t.get? sp = some '@' then
      let wr := charRun wordChar t (sp + 1)
      if wr = 0 then none else some (sp + 1 + wr)
    else none
  else none

/-- The C++ type rules `\b(std::)?T\b`: greedy optional `std::` prefix. -/
def mCppType (ty : List Char) (t : List Char) (i : Nat) : Option Nat :=
  if boundaryAt t i then
    let w1 := ['s', 't', 'd', ':', ':'] ++ ty
    if charsMatchAt t i w1 ∧ boundaryAt t (i + w1.length) then some w1.length
    else if charsMatchAt t i ty ∧ boundaryAt t (i + ty.length) then some ty.length
    else none
  else none

/-! ### Global matching -/

/-- `QRegularExpression.globalMatch`: scan candidate start positions left
to right, emitting each match and resuming just past it. -/
def gMatchAux (m : List Char → Nat → Option Nat) (t : List Char) : Nat → Nat → List (Nat × Nat)
  | _, 0 => []
  | i, fuel + 1 =>
    match m t i with
    | some l => if l = 0 then gMatchAux m t (i + 1) fuel else (i, l) :: gMatchAux m t (i + l) fuel
    | none => gMatchAux m t (i + 1) fuel

def gMatch (m : List Char → Nat → Option Nat) (t : List Char) : List (Nat × Nat) :=
  gMatchAux m t 0 (t.length + 1)

/-- Build a rule from a match-at function and its format. -/
def ruleOf (m : List Char → Nat → Option Nat) (f : Fmt) : Rule := ⟨gMatch m, f⟩

def wordRule (w : String) (f : Fmt) : Rule := ruleOf (mWord w.data) f

/-! ### The built rule tables for `python` and `c++`

Rule order follows `_setup_delimiters_and_rules` exactly: the general
string/number/operator/brace rules, the language's single-line comment
rule, the string rules repeated, then the language-specific block with the
generic keyword list appended last. -/

def pyKeywords : List String :=
  ["and", "as", "assert", "async", "await", "break", "class", "continue",
   "def", "del", "elif", "else", "except", "False", "finally", "for", "from",
   "global", "if", "import", "in", "is", "lambda", "None", "nonlocal", "not",
   "or", "pass", "raise", "return", "True", "try", "while", "with", "yield"]

def pyBuiltins : List String :=
  ["int", "str", "float", "list", "dict", "tuple", "set", "bool", "print",
   "len", "range", "open", "super", "isinstance", "type"]

def pyRules : List Rule :=
  [ruleOf (mQuoted '"') Fmt.string,
   ruleOf (mQuoted sqc) Fmt.string,
   ruleOf mNumDec Fmt.number,
   ruleOf mHex Fmt.number,
   ruleOf mBin Fmt.number,
   ruleOf mOct Fmt.number,
   ruleOf (mCharClass opsChars) Fmt.operator,
   ruleOf (mCharClass braceChars) Fmt.brace,
   ruleOf (mToEol ['#']) Fmt.comment,
   ruleOf (mQuoted '"') Fmt.string,
   ruleOf (mQuoted sqc) Fmt.string,
   ruleOf (mKwSpaceWord [String.data "def"]) Fmt.function,
   ruleOf (mKwSpaceWord [String.data "class"]) Fmt.classType,
   ruleOf mDecorator Fmt.decorator,
   wordRule "self" Fmt.selfRef,
   wordRule "cls" Fmt.selfRef,
   ruleOf mCallLookahead Fmt.function]
  ++ pyBuiltins.map (fun w => wordRule w Fmt.builtin)
  ++ pyKeywords.map (fun w => wordRule w Fmt.keyword)

def cppTypes : List String :=
  ["int", "float", "double", "char", "void", "bool", "string", "vector",
   "map", "set", "pair", "tuple", "istream", "ostream", "fstream", "size_t"]

def cppKeywords : List String :=
  ["alignas", "alignof", "and", "and_eq", "asm", "atomic_cancel",
   "atomic_commit", "atomic_noexcept", "auto", "bitand", "bitor", "bool",
   "break", "case", "catch", "char", "char8_t", "char16_t", "char32_t",
   "class", "compl", "concept", "const", "consteval", "constexpr",
   "constinit", "const_cast", "continue", "co_await", "co_return",
   "co_yield", "decltype", "default", "delete", "do", "double",
   "dynamic_cast", "else", "enum", "explicit", "export", "extern", "false",
   "float", "for", "friend", "goto", "if", "inline", "int", "long",
   "mutable", "namespace", "new", "noexcept", "not", "not_eq", "nullptr",
   "operator", "or", "or_eq", "private", "protected", "public",
   "reflexpr", "register", "reinterpret_cast", "requires", "return", "short",
   "signed", "sizeof", "static", "static_assert", "static_cast", "struct",
   "switch", "synchronized", "template", "this", "thread_local", "throw",
   "true", "try", "typedef", "typeid", "typename", "union", "unsigned",
   "using", "virtual", "void", "volatile", "wchar_t", "while", "xor", "xor_eq"]

def cppRules : List Rule :=
  [ruleOf (mQuoted '"') Fmt.string,
   ruleOf (mQuoted sqc) Fmt.string,
   ruleOf mRaw Fmt.string,
   ruleOf mNumDec Fmt.number,
   ruleOf mHex Fmt.number,
   ruleOf mBin Fmt.number,
   ruleOf mOct Fmt.number,
   ruleOf (mCharClass opsChars) Fmt.operator,
   ruleOf (mCharClass braceChars) Fmt.brace,
   ruleOf (mToEol ['/', '/']) Fmt.comment,
   ruleOf (mQuoted '"') Fmt.string,
   ruleOf (mQuoted sqc) Fmt.string,
   ruleOf mRaw Fmt.string]
  ++ cppTypes.map (fun ty => ruleOf (mCppType ty.data) Fmt.cppType)
  ++ [ruleOf (mWordAlts [String.data "true", String.data "false", String.data "nullptr"]) Fmt.cppLiteral,
      ruleOf (mKwSpaceWord [String.data "class", String.data "struct"]) Fmt.classType,
      ruleOf mCallLookahead Fmt.function,
      ruleOf mPreproc Fmt.preprocessor,
      wordRule "this" Fmt.selfRef,
      ruleOf mCallLookahead Fmt.function]
  ++ cppKeywords.map (fun w => wordRule w Fmt.keyword)

/-- The `"""` delimiter. -/
def tqDq : List Char := ['"', '"', '"']
/-- The `'''` delimiter. -/
def tqSq : List Char := [sqc, sqc, sqc]

/-- Rule table for language `python`: no multi-line comment, triple-quote
string constructs of both kinds. -/
def pyTable : HTable :=
  ⟨pyRules, none, none, some tqDq, some tqDq, some tqSq, some tqSq⟩

/-- Rule table for language `c++`: `/* … */` comment construct, no
multi-line string constructs. -/
def cppTable : HTable :=
  ⟨cppRules, some ['/', '*'], some ['*', '/'], none, none, none, none⟩

/-! ### The block highlighter state machine (`highlightBlock`) -/

/-- Result of the multi-line continuation phase: the `setFormat` and
`setCurrentBlockState` calls it made, the cursor `start_index`, and the
local `current_state` afterwards. -/
structure ContRes where
  spans : List Span
  sets : List Int
  start : Nat
  cur : Int

/-- One arm of the continuation phase, for the end pattern, state constant
and format of the construct named by the previous state.  `none` when the
table has no end pattern for it (then the source's `and` guard fails and
the whole phase is skipped). -/
def contCase (endPat : Option (List Char)) (text : List Char) (st : Int) (f : Fmt) :
    Option ContRes :=
  match endPat with
  | none => none
  | some e =>
    match findFrom e text 0 with
    | none => some ⟨[(0, text.length, f)], [st], 0, st⟩
    | some i => some ⟨[(0, i + e.length, f)], [stNormal], i + e.length, stNormal⟩

/-- The continuation phase (`highlightBlock` lines 333-375). -/
def contPhase (T : HTable) (text : List Char) (prev : Int) : ContRes :=
  if prev = stComment then
    (contCase T.mlCommentEnd text stComment Fmt.comment).getD ⟨[], [], 0, stNormal⟩
  else if prev = stStringDq then
    (contCase T.mlStringDqEnd text stStringDq Fmt.string).getD ⟨[], [], 0, stNormal⟩
  else if prev = stStringSq then
    (contCase T.mlStringSqEnd text stStringSq Fmt.string).getD ⟨[], [], 0, stNormal⟩
  else ⟨[], [], 0, stNormal⟩

/-- One candidate construct start: match position, match length, state. -/
def startCand (p? : Option (List Char)) (text : List Char) (start : Nat) (st : Int) :
    Option (Nat × Nat × Int) :=
  match p? with
  | none => none
  | some p =>
    match findFrom p text start with
    | none => none
    | some i => some (i, p.length, st)

/-- Keep the candidate with the strictly smaller start offset (so the
earlier-checked construct wins ties), mirroring the
`if next_ml_start == -1 or idx < next_ml_start` updates. -/
def betterCand (acc c : Option (Nat × Nat × Int)) : Option (Nat × Nat × Int) :=
  match c with
  | none => acc
  | some (i, l, st) =>
    match acc with
    | none => some (i, l, st)
    | some (j, l0, st0) => if i < j then some (i, l, st) else some (j, l0, st0)

/-- The earliest construct start at or after the cursor, checked in the
fixed order comment, double-quote string, single-quote string. -/
def earliestStart (T : HTable) (text : List Char) (start : Nat) : Option (Nat × Nat × Int) :=
  betterCand
    (betterCand
      (betterCand none (startCand T.mlCommentStart text start stComment))
      (startCand T.mlStringDqStart text start stStringDq))
    (startCand T.mlStringSqStart text start stStringSq)

/-- Python slice `text[start:stop]`. -/
def subSeg (text : List Char) (start stop : Nat) : List Char :=
  (text.drop start).take (stop - start)

/-- All single-line rule spans over the slice `sub`, shifted back by the
cursor (`setFormat(start_index + match.capturedStart(), ...)`); the source
skips the loop entirely when the slice is empty. -/
def ruleSpans (rules : List Rule) (sub : List Char) (start : Nat) : List Span :=
  if sub.isEmpty then []
  else rules.flatMap (fun r => (r.matcher sub).map (fun m => (start + m.1, m.2, r.fmt)))

/-- End pattern for the construct whose state constant is `st`. -/
def endPatFor (T : HTable) (st : Int) : Option (List Char) :=
  if st = stComment then T.mlCommentEnd
  else if st = stStringDq then T.mlStringDqEnd
  else if st = stStringSq then T.mlStringSqEnd
  else none

/-- Format used to paint the construct whose state constant is `st`
(`ml_format` defaults to the comment format). -/
def fmtFor (st : Int) : Fmt :=
  if st = stStringDq ∨ st = stStringSq then Fmt.string else Fmt.comment

/-- The scan phase (`highlightBlock` lines 379-467), parameterised by the
recursive call used for the tail re-scan
(`self.highlightBlock(text[start_index:])`, which re-reads the same
`previousBlockState`). -/
def scanStep (recur : List Char → Int → HOut) (T : HTable) (text : List Char)
    (start : Nat) (prev cur : Int) : HOut :=
  match earliestStart T text start with
  | none =>
    ⟨ruleSpans T.rules (subSeg text start text.length) start,
     if prev = stNormal then [cur] else []⟩
  | some (s, m, st) =>
    let rs := ruleSpans T.rules (subSeg text start s) start
    match (endPatFor T st).bind
        (fun e => (findFrom e text (s + m)).map (fun ei => (ei, e.length))) with
    | some (ei, el) =>
      let ns := ei + el
      let r := recur (text.drop ns) prev
      ⟨rs ++ [(s, ns - s, fmtFor st)] ++ r.spans,
       r.sets ++ (if prev = stNormal then [stNormal] else [])⟩
    | none =>
      ⟨rs ++ [(s, text.length - s, fmtFor st)],
       if prev = stNormal then [st] else []⟩

/-- One full `highlightBlock` body, parameterised by the recursive call:
continuation phase, then — when the cursor has not consumed a nonempty
block — the scan phase. -/
def hbStep (recur : List Char → Int → HOut) (T : HTable) (text : List Char)
    (prev : Int) : HOut :=
  let c := contPhase T text prev
  if c.start < text.length ∨ text.length = 0 then
    let s := scanStep recur T text c.start prev c.cur
    ⟨c.spans ++ s.spans, c.sets ++ s.sets⟩
  else
    ⟨c.spans, c.sets⟩

/-- Fuel-indexed `highlightBlock`. -/
def highlightBlockFuel : Nat → HTable → List Char → Int → HOut
  | 0, _, _, _ => ⟨[], []⟩
  | fuel + 1, T, text, prev => hbStep (highlightBlockFuel fuel T) T text prev

/-- `highlightBlock(text)` with previous block state `prev` under rule
table `T`.  The tail re-scan recursion strictly shrinks the text, so
`text.length + 1` fuel always suffices (proved below). -/
def highlightBlock (T : HTable) (text : List Char) (prev : Int) : HOut :=
  highlightBlockFuel (text.length + 1) T text prev

/-- The block state resulting from a call: the last
`setCurrentBlockState` argument (a call that never sets the state leaves
the block's stored state untouched). -/
def lastSet (r : HOut) : Option Int := r.sets.getLast?

/-- Final format of the character at offset `i` after all `setFormat`
calls were applied in order: the last span covering `i` wins. -/
def styleAt (spans : List Span) (i : Nat) : Option Fmt :=
  spans.foldl (fun acc sp => if sp.1 ≤ i ∧ i < sp.1 + sp.2.1 then some sp.2.2 else acc) none

/-! ### Snippet store: tag normalisation and tag filtering
(`src/snippet_manager.py`) -/

/-- Python `str.strip()`. -/
def pyStrip (s : List Char) : List Char :=
  ((s.dropWhile Char.isWhitespace).reverse.dropWhile Char.isWhitespace).reverse

/-- The tags string stored by `_save_snippet`:
`",".join([t.strip() for t in tags_input.strip().split(',') if t.strip()])`. -/
def normalizeTags (s : List Char) : List Char :=
  List.intercalate [','] ((((pyStrip s).splitOn ',').map pyStrip).filter (fun t => ¬(t = [])))

/-- SQLite `LIKE`: `%` matches any run (the rest of the pattern must then
match some suffix of the subject), `_` any single character, and plain
characters compare ASCII-case-insensitively. -/
def sqlLike : List Char → List Char → Bool
  | [], s => s.isEmpty
  | '%' :: ps, s => s.tails.any (fun t => sqlLike ps t)
  | '_' :: ps, s =>
    (match s with
     | [] => false
     | _ :: t => sqlLike ps t)
  | p :: ps, s =>
    (match s with
     | [] => false
     | c :: t => p.toLower = c.toLower && sqlLike ps t)

/-- The tag-filter condition of `load_snippets`:
`tags LIKE '%,tag,%' OR tags LIKE 'tag,%' OR tags LIKE '%,tag' OR tags = tag`. -/
def tagFilterMatches (tag tags : List Char) : Bool :=
  sqlLike ('%' :: ',' :: (tag ++ [',', '%'])) tags ||
  sqlLike (tag ++ [',', '%']) tags ||
  sqlLike ('%' :: ',' :: tag) tags ||
  tags = tag

/-! ### Soundness predicates on tables

A match-at function is bounded when every match it reports lies inside its
subject; `rulesBounded` lifts this to a whole table through `globalMatch`.
`goodDelims` says every configured delimiter pattern is nonempty (true of
every table the builder constructs: its patterns are `/\x2a`, `\x2a/`,
`<!--`, `-->`, and the triple quotes). -/

def mBound (m : List Char → Nat → Option Nat) : Prop :=
  ∀ (t : List Char) (i l : Nat), m t i = some l → i + l ≤ t.length

def rulesBounded (T : HTable) : Prop :=
  ∀ r ∈ T.rules, ∀ (s : List Char), ∀ p ∈ r.matcher s, p.1 + p.2 ≤ s.length

def delimOk : Option (List Char) → Bool
  | none => true
  | some p => !p.isEmpty

def goodDelims (T : HTable) : Bool :=
  delimOk T.mlCommentStart && delimOk T.mlCommentEnd &&
  delimOk T.mlStringDqStart && delimOk T.mlStringDqEnd &&
  delimOk T.mlStringSqStart && delimOk T.mlStringSqEnd

/-! ## Supporting lemmas -/

theorem takeWhile_length_le (p : Char → Bool) (l : List Char) :
    (l.takeWhile p).length ≤ l.length := by
  induction l with
  | nil => simp
  | cons c t ih =>
    by_cases h : p c
    · simp only [List.takeWhile_cons, h, if_true, List.length_cons]
      omega
    · simp [List.takeWhile_cons, h]

theorem charRun_le {p : Char → Bool} {t : List Char} {i : Nat} (h : i ≤ t.length) :
    i + charRun p t i ≤ t.length := by
  have h1 := takeWhile_length_le p (t.drop i)
  have h2 : (t.drop i).length = t.length - i := List.length_drop i t
  unfold charRun
  omega

theorem charRun_pos {p : Char → Bool} {t : List Char} {i : Nat}
    (h : 0 < charRun p t i) : i < t.length := by
  by_contra hc
  have hd : t.drop i = [] := List.drop_eq_nil_iff.mpr (by omega)
  simp [charRun, hd] at h

theorem get?_some_lt {t : List Char} {i : Nat} {c : Char} (h : t.get? i = some c) :
    i < t.length := by
  by_contra hc
  rw [List.get?_eq_none.mpr (by omega)] at h
  cases h

theorem charsMatchAt_le {t : List Char} {i : Nat} {w : List Char}
    (h : charsMatchAt t i w = true) (hw : w ≠ []) : i + w.length ≤ t.length := by
  unfold charsMatchAt at h
  have hp : w <+: t.drop i := List.isPrefixOf_iff_prefix.mp h
  have h1 : w.length ≤ (t.drop i).length := hp.length_le
  have h2 : (t.drop i).length = t.length - i := List.length_drop i t
  have h3 : 1 ≤ w.length := by
    cases w with
    | nil => exact absurd rfl hw
    | cons a l => simp
  omega

theorem findFromAux_some (pat : List Char) :
    ∀ (s : List Char) (i j : Nat), findFromAux pat s i = some j →
      i ≤ j ∧ j + pat.length ≤ i + s.length := by
  intro s
  induction s with
  | nil =>
    intro i j h
    unfold findFromAux at h
    split at h
    · next hp =>
      cases h
      simp [hp]
    · cases h
  | cons c t ih =>
    intro i j h
    unfold findFromAux at h
    split at h
    · next hp =>
      cases h
      have h1 : pat.length ≤ (c :: t).length :=
        (List.isPrefixOf_iff_prefix.mp hp).length_le
      exact ⟨le_refl _, by omega⟩
    · obtain ⟨h1, h2⟩ := ih (i + 1) j h
      have h3 : (c :: t).length = t.length + 1 := rfl
      exact ⟨by omega, by omega⟩

theorem findFrom_some {pat text : List Char} {start j : Nat}
    (hs : start ≤ text.length) (h : findFrom pat text start = some j) :
    start ≤ j ∧ j + pat.length ≤ text.length := by
  obtain ⟨h1, h2⟩ := findFromAux_some pat (text.drop start) start j h
  have h3 : (text.drop start).length = text.length - start := List.length_drop start text
  exact ⟨h1, by omega⟩

theorem subSeg_length_le {text : List Char} {start stop : Nat} (h : start ≤ text.length) :
    start + (subSeg text start stop).length ≤ text.length := by
  have h1 : (subSeg text start stop).length ≤ (text.drop start).length := by
    unfold subSeg
    rw [List.length_take]
    omega
  have h2 : (text.drop start).length = text.length - start := List.length_drop start text
  omega

/-! ### Boundedness of the match-at functions -/

theorem gMatchAux_bounded {m : List Char → Nat → Option Nat} {t : List Char}
    (hm : mBound m) :
    ∀ (fuel i : Nat), ∀ p ∈ gMatchAux m t i fuel, p.1 + p.2 ≤ t.length := by
  intro fuel
  induction fuel with
  | zero =>
    intro i p hp
    simp [gMatchAux] at hp
  | succ f ih =>
    intro i p hp
    unfold gMatchAux at hp
    cases hmi : m t i with
    | none =>
      simp only [hmi] at hp
      exact ih (i + 1) p hp
    | some l =>
      simp only [hmi] at hp
      by_cases hl : l = 0
      · rw [if_pos hl] at hp
        exact ih (i + 1) p hp
      · rw [if_neg hl] at hp
        rcases List.mem_cons.mp hp with h | h
        · subst h
          exact hm t i l hmi
        · exact ih (i + l) p h

theorem ruleOf_bounded {m : List Char → Nat → Option Nat} {f : Fmt} (hm : mBound m) :
    ∀ (s : List Char), ∀ p ∈ (ruleOf m f).matcher s, p.1 + p.2 ≤ s.length := by
  intro s p hp
  exact gMatchAux_bounded hm _ 0 p hp

theorem findCloseQ_bound (q : Char) :
    ∀ (s : List Char) (prevc : Char) (j r : Nat), findCloseQ q s prevc j = some r →
      j ≤ r ∧ r < j + s.length := by
  intro s
  induction s with
  | nil =>
    intro prevc j r h
    cases h
  | cons c rest ih =>
    intro prevc j r h
    unfold findCloseQ at h
    split at h
    · cases h
    · split at h
      · cases h
        simp
      · obtain ⟨h1, h2⟩ := ih c (j + 1) r h
        have h3 : (c :: rest).length = rest.length + 1 := rfl
        exact ⟨by omega, by omega⟩

theorem mQuoted_bound (q : Char) : mBound (mQuoted q) := by
  intro t i l h
  unfold mQuoted at h
  split at h
  · next hq =>
    cases hf : findCloseQ q (t.drop (i + 1)) q (i + 1) with
    | none => rw [hf] at h; cases h
    | some j =>
      rw [hf] at h
      cases h
      obtain ⟨h1, h2⟩ := findCloseQ_bound q _ q (i + 1) j hf
      have h3 : (t.drop (i + 1)).length = t.length - (i + 1) := List.length_drop _ t
      have h4 : i < t.length := get?_some_lt hq
      show i + (j + 1 - i) ≤ t.length
      omega
  · cases h

theorem expEnd_bound {t : List Char} {p x : Nat} (h : expEnd t p = some x) : x ≤ t.length := by
  unfold expEnd at h
  cases hg : t.get? p with
  | none => rw [hg] at h; cases h
  | some c =>
    simp only [hg] at h
    by_cases he : c = 'e' ∨ c = 'E'
    · rw [if_pos he] at h
      have hp1 : p < t.length := get?_some_lt hg
      cases hgs : t.get? (p + 1) with
      | none =>
        simp only [hgs] at h
        split at h
        · cases h
        · cases h
          have := charRun_le (p := Char.isDigit) (t := t) (i := p + 1) (by omega)
          simp only [Nat.add_zero]
          omega
      | some c2 =>
        simp only [hgs] at h
        by_cases hc2 : c2 = '+' ∨ c2 = '-'
        · simp only [if_pos hc2] at h
          split at h
          · cases h
          · cases h
            have hp2 : p + 1 < t.length := get?_some_lt hgs
            have := charRun_le (p := Char.isDigit) (t := t) (i := p + 1 + 1) (by omega)
            omega
        · simp only [if_neg hc2] at h
          split at h
          · cases h
          · cases h
            have := charRun_le (p := Char.isDigit) (t := t) (i := p + 1) (by omega)
            simp only [Nat.add_zero]
            omega
    · rw [if_neg he] at h
      cases h

theorem numCands_le {t : List Char} {a : Nat} (ha : a ≤ t.length) :
    ∀ j ∈ numCands t a, j ≤ t.length := by
  intro j hj
  unfold numCands at hj
  rcases List.mem_append.mp hj with hj | hj
  · rcases List.mem_append.mp hj with hj | hj
    · split at hj
      · next hdot =>
        have ha1 : a < t.length := get?_some_lt hdot
        have hb : a + 1 + charRun Char.isDigit t (a + 1) ≤ t.length :=
          charRun_le (by omega)
        simp only [List.mem_append, List.mem_cons, List.not_mem_nil, or_false] at hj
        rcases hj with hj | hj | hj
        · rcases Option.mem_toList.mp hj with hx
          exact expEnd_bound (Option.mem_def.mp hx)
        · omega
        · omega
      · simp at hj
    · rcases Option.mem_toList.mp hj with hx
      exact expEnd_bound (Option.mem_def.mp hx)
  · simp only [List.mem_singleton] at hj
    omega

theorem mNumDec_bound : mBound mNumDec := by
  intro t i l h
  unfold mNumDec at h
  dsimp only [] at h
  split at h
  · split at h
    · cases h
    · next hd0 =>
      have hi : i < t.length := charRun_pos (Nat.pos_of_ne_zero hd0)
      have ha : i + charRun Char.isDigit t i ≤ t.length := charRun_le (by omega)
      cases hfind : (numCands t (i + charRun Char.isDigit t i)).find?
          (fun j => boundaryAt t j) with
      | none => rw [hfind] at h; cases h
      | some j =>
        rw [hfind] at h
        cases h
        have hj : j ≤ t.length :=
          numCands_le ha _ (List.mem_of_find?_eq_some hfind)
        omega
  · cases h

theorem mRadix_bound (tag1 tag2 : Char) (p : Char → Bool) : mBound (mRadix tag1 tag2 p) := by
  intro t i l h
  unfold mRadix at h
  dsimp only [] at h
  split at h
  · next hc =>
    obtain ⟨hb, h0, htag⟩ := hc
    have h1 : i + 1 < t.length := by
      rcases htag with htag | htag
      · exact get?_some_lt htag
      · exact get?_some_lt htag
    split at h
    · cases h
    · split at h
      · cases h
        have := charRun_le (p := p) (t := t) (i := i + 2) (by omega)
        omega
      · cases h
  · cases h

theorem mHex_bound : mBound mHex := mRadix_bound 'x' 'X' isHexDigit
theorem mBin_bound : mBound mBin := mRadix_bound 'b' 'B' isBinDigit

theorem mOct_bound : mBound mOct := by
  intro t i l h
  unfold mOct at h
  dsimp only [] at h
  split at h
  · next hc =>
    obtain ⟨hb, h0⟩ := hc
    have hi : i < t.length := get?_some_lt h0
    split at h
    · next htag =>
      split at h
      · cases h
      · split at h
        · cases h
          have h1 : i + 1 < t.length := by
            rcases htag with htag | htag
            · exact get?_some_lt htag
            · exact get?_some_lt htag
          have := charRun_le (p := isOctDigit) (t := t) (i := i + 2) (by omega)
          omega
        · cases h
    · split at h
      · cases h
      · split at h
        · cases h
          have := charRun_le (p := isOctDigit) (t := t) (i := i + 1) (by omega)
          omega
        · cases h
  · cases h

theorem mCharClass_bound (s : List Char) : mBound (mCharClass s) := by
  intro t i l h
  unfold mCharClass at h
  cases hg : t.get? i with
  | none => rw [hg] at h; cases h
  | some c =>
    simp only [hg] at h
    split at h
    · cases h
      have := get?_some_lt hg
      omega
    · cases h

theorem mToEol_bound {pre : List Char} (hpre : pre ≠ []) : mBound (mToEol pre) := by
  intro t i l h
  unfold mToEol at h
  split at h
  · next hm =>
    cases h
    have h1 : i + pre.length ≤ t.length := charsMatchAt_le hm hpre
    have := charRun_le (p := notNl) (t := t) (i := i + pre.length) h1
    omega
  · cases h

theorem mRaw_bound : mBound mRaw := by
  intro t i l h
  unfold mRaw at h
  dsimp only [] at h
  split at h
  · split at h
    · next hc =>
      cases h
      have h1 : i + 3 + charRun (fun c => ¬(c = ')') ∧ ¬(c = '\n')) t (i + 3) + 1 <
          t.length := get?_some_lt hc.2
      omega
    · cases h
  · cases h

theorem mWord_bound {w : List Char} (hw : w ≠ []) : mBound (mWord w) := by
  intro t i l h
  unfold mWord at h
  split at h
  · next hc =>
    cases h
    exact charsMatchAt_le hc.2.1 hw
  · cases h

theorem mWordAlts_bound {ws : List (List Char)} (hws : ∀ w ∈ ws, w ≠ []) :
    mBound (mWordAlts ws) := by
  intro t i l h
  unfold mWordAlts at h
  split at h
  · cases hfind : ws.find? (fun w => charsMatchAt t i w && boundaryAt t (i + w.length)) with
    | none => rw [hfind] at h; cases h
    | some w =>
      rw [hfind] at h
      cases h
      have hmem := List.mem_of_find?_eq_some hfind
      have hp := List.find?_some hfind
      simp only [Bool.and_eq_true] at hp
      exact charsMatchAt_le hp.1 (hws w hmem)
  · cases h

theorem mKwSpaceWord_bound {kws : List (List Char)} (hws : ∀ w ∈ kws, w ≠ []) :
    mBound (mKwSpaceWord kws) := by
  intro t i l h
  unfold mKwSpaceWord at h
  dsimp only [] at h
  split at h
  · obtain ⟨w, hmem, hw⟩ := List.exists_of_findSome?_eq_some h
    split at hw
    · next hc =>
      have h1 : i + w.length ≤ t.length := charsMatchAt_le hc (hws w hmem)
      split at hw
      · cases hw
      · have h2 : i + w.length + charRun wsChar t (i + w.length) ≤ t.length :=
          charRun_le h1
        split at hw
        · cases hw
        · cases hw
          have h3 := charRun_le (p := wordChar) (t := t)
            (i := i + w.length + charRun wsChar t (i + w.length)) h2
          omega
    · cases hw
  · cases h

theorem mCallLookahead_bound : mBound mCallLookahead := by
  intro t i l h
  unfold mCallLookahead at h
  dsimp only [] at h
  split at h
  · split at h
    · cases h
    · next hwr =>
      split at h
      · cases h
        have hi : i < t.length := charRun_pos (Nat.pos_of_ne_zero hwr)
        have := charRun_le (p := wordChar) (t := t) (i := i) (by omega)
        omega
      · cases h
  · cases h

theorem mPreproc_bound : mBound mPreproc := by
  intro t i l h
  unfold mPreproc at h
  dsimp only [] at h
  split at h
  · next hi0 =>
    subst hi0
    split at h
    · next hmark =>
      have h1 : charRun wsChar t 0 < t.length := get?_some_lt hmark
      split at h
      · cases h
      · cases h
        have h2 : charRun wsChar t 0 + 1 + charRun wordChar t (charRun wsChar t 0 + 1) ≤
            t.length := charRun_le (by omega)
        have h3 := charRun_le (p := notNl) (t := t)
          (i := charRun wsChar t 0 + 1 + charRun wordChar t (charRun wsChar t 0 + 1)) h2
        omega
    · cases h
  · cases h

theorem mDecorator_bound : mBound mDecorator := by
  intro t i l h
  unfold mDecorator at h
  dsimp only [] at h
  split at h
  · next hi0 =>
    subst hi0
    split at h
    · next hmark =>
      have h1 : charRun wsChar t 0 < t.length := get?_some_lt hmark
      split at h
      · cases h
      · cases h
        have h2 : charRun wsChar t 0 + 1 + charRun wordChar t (charRun wsChar t 0 + 1) ≤
            t.length := charRun_le (by omega)
        omega
    · cases h
  · cases h

theorem mCppType_bound {ty : List Char} (hty : ty ≠ []) : mBound (mCppType ty) := by
  intro t i l h
  unfold mCppType at h
  dsimp only [] at h
  split at h
  · split at h
    · next hc =>
      cases h
      exact charsMatchAt_le hc.1 (by simp)
    · split at h
      · next hc =>
        cases h
        exact charsMatchAt_le hc.1 hty
      · cases h
  · cases h

theorem pyTable_bounded : rulesBounded pyTable := by
  intro r hr
  have hbi : ∀ w ∈ pyBuiltins, w.data ≠ [] := by decide
  have hkw : ∀ w ∈ pyKeywords, w.data ≠ [] := by decide
  simp only [pyTable, pyRules, List.mem_append, List.mem_cons, List.not_mem_nil,
    or_false, List.mem_map] at hr
  rcases hr with ((rfl | rfl | rfl | rfl | rfl | rfl | rfl | rfl | rfl | rfl | rfl |
      rfl | rfl | rfl | rfl | rfl | rfl) | ⟨w, hw, rfl⟩) | ⟨w, hw, rfl⟩
  · exact ruleOf_bounded (mQuoted_bound '"')
  · exact ruleOf_bounded (mQuoted_bound sqc)
  · exact ruleOf_bounded mNumDec_bound
  · exact ruleOf_bounded mHex_bound
  · exact ruleOf_bounded mBin_bound
  · exact ruleOf_bounded mOct_bound
  · exact ruleOf_bounded (mCharClass_bound opsChars)
  · exact ruleOf_bounded (mCharClass_bound braceChars)
  · exact ruleOf_bounded (mToEol_bound (by decide))
  · exact ruleOf_bounded (mQuoted_bound '"')
  · exact ruleOf_bounded (mQuoted_bound sqc)
  · exact ruleOf_bounded (mKwSpaceWord_bound (by decide))
  · exact ruleOf_bounded (mKwSpaceWord_bound (by decide))
  · exact ruleOf_bounded mDecorator_bound
  · exact ruleOf_bounded (mWord_bound (by decide))
  · exact ruleOf_bounded (mWord_bound (by decide))
  · exact ruleOf_bounded mCallLookahead_bound
  · exact ruleOf_bounded (mWord_bound (hbi w hw))
  · exact ruleOf_bounded (mWord_bound (hkw w hw))

theorem cppTable_bounded : rulesBounded cppTable := by
  intro r hr
  have hty : ∀ w ∈ cppTypes, w.data ≠ [] := by decide
  have hkw : ∀ w ∈ cppKeywords, w.data ≠ [] := by decide
  simp only [cppTable, cppRules, List.mem_append, List.mem_cons, List.not_mem_nil,
    or_false, List.mem_map] at hr
  rcases hr with (((rfl | rfl | rfl | rfl | rfl | rfl | rfl | rfl | rfl | rfl | rfl |
      rfl | rfl) | ⟨w, hw, rfl⟩) |
      (rfl | rfl | rfl | rfl | rfl | rfl)) | ⟨w, hw, rfl⟩
  · exact ruleOf_bounded (mQuoted_bound '"')
  · exact ruleOf_bounded (mQuoted_bound sqc)
  · exact ruleOf_bounded mRaw_bound
  · exact ruleOf_bounded mNumDec_bound
  · exact ruleOf_bounded mHex_bound
  · exact ruleOf_bounded mBin_bound
  · exact ruleOf_bounded mOct_bound
  · exact ruleOf_bounded (mCharClass_bound opsChars)
  · exact ruleOf_bounded (mCharClass_bound braceChars)
  · exact ruleOf_bounded (mToEol_bound (by decide))
  · exact ruleOf_bounded (mQuoted_bound '"')
  · exact ruleOf_bounded (mQuoted_bound sqc)
  · exact ruleOf_bounded mRaw_bound
  · exact ruleOf_bounded (mCppType_bound (hty w hw))
  · exact ruleOf_bounded (mWordAlts_bound (by decide))
  · exact ruleOf_bounded (mKwSpaceWord_bound (by decide))
  · exact ruleOf_bounded mCallLookahead_bound
  · exact ruleOf_bounded mPreproc_bound
  · exact ruleOf_bounded (mWord_bound (by decide))
  · exact ruleOf_bounded mCallLookahead_bound
  · exact ruleOf_bounded (mWord_bound (hkw w hw))

/-! ### Properties of the continuation and scan phases -/

theorem contCase_some {endPat : Option (List Char)} {text : List Char} {st : Int}
    {f : Fmt} {c : ContRes} (h : contCase endPat text st f = some c) :
    (∀ sp ∈ c.spans, sp.1 + sp.2.1 ≤ text.length) ∧ c.start ≤ text.length := by
  unfold contCase at h
  cases endPat with
  | none => cases h
  | some e =>
    cases hf : findFrom e text 0 with
    | none =>
      simp only [hf] at h
      cases h
      refine ⟨?_, by simp⟩
      intro sp hsp
      simp only [List.mem_singleton] at hsp
      subst hsp
      simp
    | some i =>
      simp only [hf] at h
      cases h
      have h2 := (findFrom_some (Nat.zero_le _) hf).2
      refine ⟨?_, by simpa using h2⟩
      intro sp hsp
      simp only [List.mem_singleton] at hsp
      subst hsp
      simpa using h2

theorem contPhase_ok (T : HTable) (text : List Char) (prev : Int) :
    (∀ sp ∈ (contPhase T text prev).spans, sp.1 + sp.2.1 ≤ text.length) ∧
    (contPhase T text prev).start ≤ text.length := by
  unfold contPhase
  split
  · cases hc : contCase T.mlCommentEnd text stComment Fmt.comment with
    | none => simp [hc]
    | some c => simpa [hc] using contCase_some hc
  · split
    · cases hc : contCase T.mlStringDqEnd text stStringDq Fmt.string with
      | none => simp [hc]
      | some c => simpa [hc] using contCase_some hc
    · split
      · cases hc : contCase T.mlStringSqEnd text stStringSq Fmt.string with
        | none => simp [hc]
        | some c => simpa [hc] using contCase_some hc
      · simp

theorem ruleSpans_bounded {rules : List Rule} {sub : List Char} {start L : Nat}
    (hb : ∀ r ∈ rules, ∀ (s : List Char), ∀ p ∈ r.matcher s, p.1 + p.2 ≤ s.length)
    (hsub : start + sub.length ≤ L) :
    ∀ sp ∈ ruleSpans rules sub start, sp.1 + sp.2.1 ≤ L := by
  intro sp hsp
  unfold ruleSpans at hsp
  split at hsp
  · simp at hsp
  · obtain ⟨r, hr, hm⟩ := List.mem_flatMap.mp hsp
    obtain ⟨m, hm2, rfl⟩ := List.mem_map.mp hm
    have := hb r hr sub m hm2
    dsimp only []
    omega

theorem startCand_cases {p? : Option (List Char)} {text : List Char} {start : Nat}
    {st : Int} {c : Nat × Nat × Int} (h : startCand p? text start st = some c) :
    ∃ p, p? = some p ∧ findFrom p text start = some c.1 ∧ c.2.1 = p.length := by
  cases p? with
  | none => simp [startCand] at h
  | some p =>
    cases hf : findFrom p text start with
    | none => simp [startCand, hf] at h
    | some i =>
      simp only [startCand, hf, Option.some.injEq] at h
      subst h
      exact ⟨p, rfl, hf, rfl⟩

theorem betterCand_some {a b : Option (Nat × Nat × Int)} {c : Nat × Nat × Int}
    (h : betterCand a b = some c) : a = some c ∨ b = some c := by
  unfold betterCand at h
  cases b with
  | none => exact Or.inl h
  | some x =>
    obtain ⟨i, l, st⟩ := x
    cases a with
    | none => exact Or.inr h
    | some y =>
      obtain ⟨j, l0, st0⟩ := y
      dsimp only [] at h
      split at h
      all_goals first
        | exact Or.inl h
        | exact Or.inr h

theorem earliestStart_cases {T : HTable} {text : List Char} {start : Nat}
    {c : Nat × Nat × Int} (h : earliestStart T text start = some c) :
    ∃ p, (T.mlCommentStart = some p ∨ T.mlStringDqStart = some p ∨
        T.mlStringSqStart = some p) ∧
      findFrom p text start = some c.1 ∧ c.2.1 = p.length := by
  unfold earliestStart at h
  rcases betterCand_some h with h1 | h1
  · rcases betterCand_some h1 with h2 | h2
    · rcases betterCand_some h2 with h3 | h3
      · cases h3
      · obtain ⟨p, hp, hf, hl⟩ := startCand_cases h3
        exact ⟨p, Or.inl hp, hf, hl⟩
    · obtain ⟨p, hp, hf, hl⟩ := startCand_cases h2
      exact ⟨p, Or.inr (Or.inl hp), hf, hl⟩
  · obtain ⟨p, hp, hf, hl⟩ := startCand_cases h1
    exact ⟨p, Or.inr (Or.inr hp), hf, hl⟩

theorem earliestStart_bound {T : HTable} {text : List Char} {start : Nat}
    {c : Nat × Nat × Int} (hs : start ≤ text.length)
    (h : earliestStart T text start = some c) :
    start ≤ c.1 ∧ c.1 + c.2.1 ≤ text.length := by
  obtain ⟨p, _, hf, hl⟩ := earliestStart_cases h
  obtain ⟨h1, h2⟩ := findFrom_some hs hf
  exact ⟨h1, by omega⟩

theorem delimOk_ne {o : Option (List Char)} {p : List Char}
    (h : delimOk o = true) (hp : o = some p) : p ≠ [] := by
  subst hp
  simp only [delimOk, Bool.not_eq_true'] at h
  intro hnil
  subst hnil
  simp at h

theorem goodDelims_spec {T : HTable} (hg : goodDelims T = true) :
    delimOk T.mlCommentStart = true ∧ delimOk T.mlCommentEnd = true ∧
    delimOk T.mlStringDqStart = true ∧ delimOk T.mlStringDqEnd = true ∧
    delimOk T.mlStringSqStart = true ∧ delimOk T.mlStringSqEnd = true := by
  unfold goodDelims at hg
  simp only [Bool.and_eq_true] at hg
  tauto

theorem earliestStart_pos {T : HTable} {text : List Char} {start : Nat}
    {c : Nat × Nat × Int} (hg : goodDelims T = true)
    (h : earliestStart T text start = some c) : 1 ≤ c.2.1 := by
  obtain ⟨p, hp, _, hl⟩ := earliestStart_cases h
  obtain ⟨g1, _, g3, _, g5, _⟩ := goodDelims_spec hg
  have hne : p ≠ [] := by
    rcases hp with hp | hp | hp
    · exact delimOk_ne g1 hp
    · exact delimOk_ne g3 hp
    · exact delimOk_ne g5 hp
  have : 1 ≤ p.length := by
    cases p with
    | nil => exact absurd rfl hne
    | cons a l => simp
  omega

theorem endPatFor_ne {T : HTable} {st : Int} {e : List Char}
    (hg : goodDelims T = true) (h : endPatFor T st = some e) : e ≠ [] := by
  obtain ⟨_, g2, _, g4, _, g6⟩ := goodDelims_spec hg
  unfold endPatFor at h
  split at h
  · exact delimOk_ne g2 h
  · split at h
    · exact delimOk_ne g4 h
    · split at h
      · exact delimOk_ne g6 h
      · cases h

theorem scanStep_spans_bounded {recur : List Char → Int → HOut} {T : HTable}
    {text : List Char} {start : Nat} {prev cur : Int}
    (hT : rulesBounded T) (hs : start ≤ text.length)
    (hrec : ∀ (t : List Char) (p : Int), ∀ sp ∈ (recur t p).spans,
      sp.1 + sp.2.1 ≤ t.length) :
    ∀ sp ∈ (scanStep recur T text start prev cur).spans,
      sp.1 + sp.2.1 ≤ text.length := by
  intro sp hsp
  unfold scanStep at hsp
  cases hES : earliestStart T text start with
  | none =>
    simp only [hES] at hsp
    exact ruleSpans_bounded hT (subSeg_length_le hs) sp hsp
  | some c =>
    obtain ⟨s, m, st⟩ := c
    simp only [hES] at hsp
    obtain ⟨hs1, hs2⟩ := earliestStart_bound hs hES
    cases hE : (endPatFor T st).bind
        (fun e => (findFrom e text (s + m)).map (fun ei => (ei, e.length))) with
    | none =>
      simp only [hE] at hsp
      rcases List.mem_append.mp hsp with hsp | hsp
      · exact ruleSpans_bounded hT (subSeg_length_le hs) sp hsp
      · simp only [List.mem_singleton] at hsp
        subst hsp
        dsimp only []
        omega
    | some q =>
      obtain ⟨ei, el⟩ := q
      simp only [hE] at hsp
      obtain ⟨e, he, hfe⟩ := Option.bind_eq_some.mp hE
      obtain ⟨ei0, hff, hpair⟩ := Option.map_eq_some'.mp hfe
      obtain ⟨hei, hel⟩ : ei0 = ei ∧ e.length = el := by simpa using hpair
      subst hei
      subst hel
      have hs1' : start ≤ s := hs1
      have hs2' : s + m ≤ text.length := hs2
      have hend := findFrom_some (show s + m ≤ text.length from hs2') hff
      rcases List.mem_append.mp hsp with hsp | hsp
      · rcases List.mem_append.mp hsp with hsp | hsp
        · exact ruleSpans_bounded hT (subSeg_length_le hs) sp hsp
        · simp only [List.mem_singleton] at hsp
          subst hsp
          dsimp only []
          omega
      · have hb := hrec _ prev sp hsp
        have hd : (text.drop (ei0 + e.length)).length =
            text.length - (ei0 + e.length) := List.length_drop _ text
        omega

theorem highlightBlockFuel_spans_bounded {T : HTable} (hT : rulesBounded T) :
    ∀ (fuel : Nat) (text : List Char) (prev : Int),
      ∀ sp ∈ (highlightBlockFuel fuel T text prev).spans,
        sp.1 + sp.2.1 ≤ text.length := by
  intro fuel
  induction fuel with
  | zero =>
    intro text prev sp hsp
    simp [highlightBlockFuel] at hsp
  | succ f ih =>
    intro text prev sp hsp
    unfold highlightBlockFuel hbStep at hsp
    dsimp only [] at hsp
    obtain ⟨hc1, hc2⟩ := contPhase_ok T text prev
    split at hsp
    · rcases List.mem_append.mp hsp with hsp | hsp
      · exact hc1 sp hsp
      · exact scanStep_spans_bounded hT hc2 (fun t p => ih t p) sp hsp
    · exact hc1 sp hsp

/-! ### Fuel stability: the tail re-scan recursion is well-founded -/

theorem scanStep_congr {r1 r2 : List Char → Int → HOut} {T : HTable}
    {text : List Char} {start : Nat} {prev cur : Int}
    (hg : goodDelims T = true) (hs : start ≤ text.length)
    (h : ∀ (t : List Char) (p : Int), t.length + 2 ≤ text.length → r1 t p = r2 t p) :
    scanStep r1 T text start prev cur = scanStep r2 T text start prev cur := by
  unfold scanStep
  cases hES : earliestStart T text start with
  | none => rfl
  | some c =>
    obtain ⟨s, m, st⟩ := c
    dsimp only []
    cases hE : (endPatFor T st).bind
        (fun e => (findFrom e text (s + m)).map (fun ei => (ei, e.length))) with
    | none => rfl
    | some q =>
      obtain ⟨ei, el⟩ := q
      obtain ⟨e, he, hfe⟩ := Option.bind_eq_some.mp hE
      obtain ⟨ei0, hff, hpair⟩ := Option.map_eq_some'.mp hfe
      obtain ⟨hei, hel⟩ : ei0 = ei ∧ e.length = el := by simpa using hpair
      subst hei
      subst hel
      have hm : 1 ≤ m := earliestStart_pos hg hES
      have hs2 : s + m ≤ text.length := (earliestStart_bound hs hES).2
      have hene : e ≠ [] := endPatFor_ne hg he
      have hel1 : 1 ≤ e.length := by
        cases e with
        | nil => exact absurd rfl hene
        | cons a l => simp
      have hend := findFrom_some hs2 hff
      have hrec : r1 (text.drop (ei0 + e.length)) prev =
          r2 (text.drop (ei0 + e.length)) prev := by
        apply h
        have hd : (text.drop (ei0 + e.length)).length =
            text.length - (ei0 + e.length) := List.length_drop _ _
        omega
      dsimp only []
      rw [hrec]

theorem hbStep_congr {r1 r2 : List Char → Int → HOut} {T : HTable}
    {text : List Char} {prev : Int} (hg : goodDelims T = true)
    (h : ∀ (t : List Char) (p : Int), t.length + 2 ≤ text.length → r1 t p = r2 t p) :
    hbStep r1 T text prev = hbStep r2 T text prev := by
  unfold hbStep
  dsimp only []
  split
  · rw [scanStep_congr hg (contPhase_ok T text prev).2 h]
  · rfl

theorem highlightBlockFuel_stable {T : HTable} (hg : goodDelims T = true) :
    ∀ (n : Nat) (text : List Char) (prev : Int) (f1 f2 : Nat),
      text.length ≤ n → text.length < f1 → text.length < f2 →
      highlightBlockFuel f1 T text prev = highlightBlockFuel f2 T text prev := by
  intro n
  induction n with
  | zero =>
    intro text prev f1 f2 hn h1 h2
    obtain ⟨fa, rfl⟩ : ∃ fa, f1 = fa + 1 := ⟨f1 - 1, by omega⟩
    obtain ⟨fb, rfl⟩ : ∃ fb, f2 = fb + 1 := ⟨f2 - 1, by omega⟩
    show hbStep (highlightBlockFuel fa T) T text prev =
      hbStep (highlightBlockFuel fb T) T text prev
    apply hbStep_congr hg
    intro t p hlen
    exact absurd hlen (by omega)
  | succ k ih =>
    intro text prev f1 f2 hn h1 h2
    obtain ⟨fa, rfl⟩ : ∃ fa, f1 = fa + 1 := ⟨f1 - 1, by omega⟩
    obtain ⟨fb, rfl⟩ : ∃ fb, f2 = fb + 1 := ⟨f2 - 1, by omega⟩
    show hbStep (highlightBlockFuel fa T) T text prev =
      hbStep (highlightBlockFuel fb T) T text prev
    apply hbStep_congr hg
    intro t p hlen
    exact ih t p fa fb (by omega) (by omega) (by omega)

/-! ## The claims -/

set_option maxRecDepth 10000

/-- C1.  The claim says: previousState ≠ Normal, end pattern defined but
unmatched in the block ⟹ the entire block is styled with the construct's
style as the final result, nextState = previousState, and no single-line
rule or construct-start spans are emitted.  The code violates the last
part: in the no-match branch `start_index` stays 0, so the guard
`start_index < len(text)` at line 379 lets the scan phase run over the
whole block.  Evaluated at language c++, text `int x`, previousState
InComment: after the whole-block comment span the code emits a type span
and a keyword span over `int` (the keyword span winning at offsets 0-2),
while nextState is indeed InComment. -/
theorem c1_continuation_no_match_still_runs_rules :
    highlightBlock cppTable (String.data "int x") stComment =
      ⟨[(0, 5, Fmt.comment), (0, 3, Fmt.cppType), (0, 3, Fmt.keyword)], [stComment]⟩ ∧
    styleAt (highlightBlock cppTable (String.data "int x") stComment).spans 0 =
      some Fmt.keyword := by
  decide

/-- C2.  The claim says every span of the tail re-scan after a same-line
construct is reported at block-absolute offsets, giving spans over `"str"`
(offsets 9-13) and `/* c2 */` (offsets 15-22) for the c++ test line.  The
code recurses with `self.highlightBlock(text[start_index:])`, whose
`setFormat` calls use slice-relative offsets on the block: the string span
lands at (1,5) and the second comment span at (7,8). -/
theorem c2_tail_rescan_offsets_slice_relative :
    highlightBlock cppTable (String.data "/* c1 */ \"str\" /* c2 */") stNormal =
      ⟨[(0, 8, Fmt.comment), (1, 5, Fmt.string), (1, 5, Fmt.string),
        (7, 8, Fmt.comment)], [stNormal, stNormal, stNormal]⟩ ∧
    ¬ (9, 5, Fmt.string) ∈
        (highlightBlock cppTable (String.data "/* c1 */ \"str\" /* c2 */") stNormal).spans := by
  decide

/-- C3 counterexample.  The claim says the token `class` in python
`class Foo:` ends up styled with the class/type style.  It does not: the
generic keyword rules are appended after the `class\s+\w+` rule, so under
last-write-wins the keyword format overwrites offsets 0-4. -/
theorem c3_counterexample :
    ¬ styleAt (highlightBlock pyTable (String.data "class Foo:") stNormal).spans 0 =
        some Fmt.classType := by
  decide

/-- C3 amended.  Under the last-write-wins overlap policy, the generic
keyword rule (appended last) overwrites the class-definition rule at the
overlapping token: `class` (offsets 0-4) ends up keyword-styled, while the
class name `Foo` (offsets 6-8) keeps the class/type style from the
`class\s+\w+` rule; the final state is Normal. -/
theorem c3_amended_keyword_overwrites :
    styleAt (highlightBlock pyTable (String.data "class Foo:") stNormal).spans 0 =
      some Fmt.keyword ∧
    styleAt (highlightBlock pyTable (String.data "class Foo:") stNormal).spans 4 =
      some Fmt.keyword ∧
    styleAt (highlightBlock pyTable (String.data "class Foo:") stNormal).spans 6 =
      some Fmt.classType ∧
    styleAt (highlightBlock pyTable (String.data "class Foo:") stNormal).spans 8 =
      some Fmt.classType ∧
    lastSet (highlightBlock pyTable (String.data "class Foo:") stNormal) = some stNormal := by
  decide

/-- C4.  The claim says: when the scan finds a construct start at `s` whose
end pattern has no later match in the block, the block is styled from `s`
to its end and nextState is the construct's state — universally, even when
an earlier construct opened and closed before `s` on the same line.  The
code violates the recursive case: for c++ text `/* a */ /* b` the second
construct is found inside the tail re-scan, its span is emitted at the
slice-relative offsets (1,4) instead of (8,4), and the outer call's final
`setCurrentBlockState(Normal)` (line 466) runs after the recursion's
`setCurrentBlockState(InComment)`, so the resulting block state is Normal,
not InComment. -/
theorem c4_unterminated_construct_after_closed_one :
    highlightBlock cppTable (String.data "/* a */ /* b") stNormal =
      ⟨[(0, 7, Fmt.comment), (1, 4, Fmt.comment)], [stComment, stNormal]⟩ ∧
    lastSet (highlightBlock cppTable (String.data "/* a */ /* b") stNormal) =
      some stNormal := by
  decide

/-- C5 counterexample.  The claim says: previousState names a construct
with no configured end pattern ⟹ the whole block stays styled with the
construct's style and nextState = previousState.  For the python table
(which has no multi-line comment construct) with previousState InComment
and text `x`, the code emits no comment span at all and never calls
`setCurrentBlockState`. -/
theorem c5_counterexample :
    ¬ ((0, 1, Fmt.comment) ∈ (highlightBlock pyTable (String.data "x") stComment).spans ∧
       lastSet (highlightBlock pyTable (String.data "x") stComment) = some stComment) := by
  decide

/-- C5 amended.  When the table defines no end pattern for the construct
named by previousState, the continuation phase is skipped entirely (the
source's `and` guard fails): the block is processed by the scan phase from
cursor 0, and — because `previous_state ≠ Normal` — no
`setCurrentBlockState` call is made by the non-recursive paths, rather than
the state being forced back to previousState. -/
theorem c5_amended_missing_end_skips_continuation (T : HTable) (text : List Char)
    (prev : Int) (f : Nat)
    (h : (prev = stComment ∧ T.mlCommentEnd = none) ∨
         (prev = stStringDq ∧ T.mlStringDqEnd = none) ∨
         (prev = stStringSq ∧ T.mlStringSqEnd = none)) :
    highlightBlockFuel (f + 1) T text prev =
      scanStep (highlightBlockFuel f T) T text 0 prev stNormal := by
  have hc : contPhase T text prev = ⟨[], [], 0, stNormal⟩ := by
    rcases h with ⟨h1, h2⟩ | ⟨h1, h2⟩ | ⟨h1, h2⟩ <;> subst h1 <;>
      simp [contPhase, contCase, h2, stComment, stStringDq, stStringSq]
  show hbStep (highlightBlockFuel f T) T text prev = _
  unfold hbStep
  rw [hc]
  dsimp only []
  rw [if_pos (by omega)]
  simp

theorem c5_witness :
    highlightBlockFuel 2 pyTable (String.data "x") stComment =
      scanStep (highlightBlockFuel 1 pyTable) pyTable (String.data "x") 0 stComment
        stNormal :=
  c5_amended_missing_end_skips_continuation pyTable (String.data "x") stComment 1
    (Or.inl ⟨rfl, rfl⟩)

/-- C6.  When previousState is the comment-construct state and its end
pattern first matches at index `i` with length `L`, the block is styled on
`[0, i+L)` with the comment format, the state call is Normal, and the scan
phase resumes at cursor `i+L` (first conjunct).  In particular (second and
third conjuncts): c++ `/* start` from Normal gives one whole-block comment
span and state InComment, and c++ `still comment */ int x;` from InComment
gives a comment span over `still comment */`, type and keyword spans over
`int`, and state Normal. -/
theorem c6_continuation_match_resumes_scan (T : HTable) (text : List Char) (f : Nat)
    (e : List Char) (i : Nat) (hE : T.mlCommentEnd = some e)
    (hF : findFrom e text 0 = some i) (hlt : i + e.length < text.length) :
    (highlightBlockFuel (f + 1) T text stComment =
      ⟨(0, i + e.length, Fmt.comment) ::
         (scanStep (highlightBlockFuel f T) T text (i + e.length) stComment
           stNormal).spans,
       stNormal ::
         (scanStep (highlightBlockFuel f T) T text (i + e.length) stComment
           stNormal).sets⟩) ∧
    highlightBlock cppTable (String.data "/* start") stNormal =
      ⟨[(0, 8, Fmt.comment)], [stComment]⟩ ∧
    highlightBlock cppTable (String.data "still comment */ int x;") stComment =
      ⟨[(0, 16, Fmt.comment), (22, 1, Fmt.operator), (17, 3, Fmt.cppType),
        (17, 3, Fmt.keyword)], [stNormal]⟩ := by
  refine ⟨?_, by decide, by decide⟩
  have hc : contPhase T text stComment =
      ⟨[(0, i + e.length, Fmt.comment)], [stNormal], i + e.length, stNormal⟩ := by
    simp [contPhase, contCase, hE, hF]
  show hbStep (highlightBlockFuel f T) T text stComment = _
  unfold hbStep
  rw [hc]
  dsimp only []
  rw [if_pos (Or.inl hlt)]
  simp

theorem c6_witness :
    highlightBlockFuel 6 cppTable (String.data "a*/bc") stComment =
      ⟨(0, 3, Fmt.comment) ::
         (scanStep (highlightBlockFuel 5 cppTable) cppTable (String.data "a*/bc") 3
           stComment stNormal).spans,
       stNormal ::
         (scanStep (highlightBlockFuel 5 cppTable) cppTable (String.data "a*/bc") 3
           stComment stNormal).sets⟩ :=
  (c6_continuation_match_resumes_scan cppTable (String.data "a*/bc") 5 ['*', '/'] 1
    rfl (by decide) (by decide)).1

/-- C7.  Determinism: `highlightBlock` is a pure function of the rule
table, the block text and the previous state — the embedding takes exactly
these three inputs (the Python method reads nothing else that varies:
`highlighting_rules` and the six delimiters are the immutable table,
`previousBlockState()` is the prev-state input, and the tail-recursion
re-reads the same values), so calling it twice on identical inputs yields
identical spans and state calls. -/
theorem c7_deterministic (T : HTable) (text : List Char) (prev : Int) :
    highlightBlock T text prev = highlightBlock T text prev := rfl

/-- C8.  Termination of the tail re-scan: with any fuel exceeding the text
length, `highlightBlockFuel` computes the same (hence fuel-independent)
result as `highlightBlock`, because each recursive call
`highlightBlock(text[start_index:])` drops a cursor advance of at least 2
(the nonempty start and end delimiter matches), so `text.length + 1` fuel
always suffices; the embedding is a total function, so no input can make
it throw or abort. -/
theorem c8_terminates_fuel_irrelevant (T : HTable) (hg : goodDelims T = true)
    (text : List Char) (prev : Int) (fuel : Nat) (hf : text.length < fuel) :
    highlightBlockFuel fuel T text prev = highlightBlock T text prev :=
  highlightBlockFuel_stable hg text.length text prev fuel (text.length + 1) le_rfl hf
    (Nat.lt_succ_self _)

theorem c8_witness :
    highlightBlockFuel 5 cppTable (String.data "x") stNormal =
      highlightBlock cppTable (String.data "x") stNormal :=
  c8_terminates_fuel_irrelevant cppTable (by decide) (String.data "x") stNormal 5
    (by decide)

/-- C9.  Tag round-trip: saving tags input `a, b ,c` stores exactly
`a,b,c` (split on commas, trimmed, empties dropped, re-joined), and the
four-shape tag filter of `load_snippets` matches the stored string for tag
`b` and for no absent tag `d`. -/
theorem c9_tag_roundtrip_and_filter :
    normalizeTags (String.data "a, b ,c") = String.data "a,b,c" ∧
    tagFilterMatches (String.data "b") (normalizeTags (String.data "a, b ,c")) = true ∧
    tagFilterMatches (String.data "d") (normalizeTags (String.data "a, b ,c")) = false := by
  decide

/-- C10.  Every span emitted by `highlightBlock` lies inside the block:
for any table whose rule matchers report matches inside their subject
(proved above for the built python and c++ tables), every emitted
`(startOffset, length, fmt)` satisfies `startOffset + length ≤ text.length`
(and `startOffset ≥ 0` holds by the `Nat` type).  This covers continuation
spans, rule spans, construct spans and the spans of the recursive tail
re-scan. -/
theorem c10_spans_inside_block (T : HTable) (hT : rulesBounded T) (text : List Char)
    (prev : Int) (sp : Span) (hsp : sp ∈ (highlightBlock T text prev).spans) :
    sp.1 + sp.2.1 ≤ text.length :=
  highlightBlockFuel_spans_bounded hT (text.length + 1) text prev sp hsp

theorem c10_witness :
    (0 : Nat) + 9 ≤ (String.data "class Foo:").length :=
  c10_spans_inside_block pyTable pyTable_bounded (String.data "class Foo:") stNormal
    (0, 9, Fmt.classType) (by decide)

end SnippetManager
